import Mathlib

/-!
Verification of the multi-agent orchestration runtime in `agents/s_full.py`.

Each Python component the claims refer to is given a shallow embedding:
pure functions become Lean functions, the file-backed stores (task board,
inbox files, transcripts) become explicit state values threaded through the
operations, and Python exceptions become `Except` results.  The opaque LLM
call is treated as a parameter (the summary text it returns), exactly as the
code treats it: the code never inspects it beyond extracting the text.
-/

namespace SFull

/-! ## Todo tracker (`TodoManager`, s03 section of `s_full.py`) -/

/-- One todo item, mirroring the dicts validated by `TodoManager.update`.
The Python items are dicts; the tool schema requires exactly these three
string fields, which `update` reads with `str(item.get(...))`. -/
structure TodoItem where
  content : String
  status : String
  activeForm : String
deriving DecidableEq, Repr

/-- The status whitelist in `TodoManager.update`. -/
def allowedStatuses : List String := ["pending", "in_progress", "completed"]

/-- Drop leading whitespace characters from a character list. -/
def dropLeadingWS : List Char → List Char
  | [] => []
  | c :: cs => if c.isWhitespace then dropLeadingWS cs else c :: cs

/-- Python `str.strip()`: drop whitespace at both ends. -/
def pyStrip (s : String) : String :=
  ⟨(dropLeadingWS (dropLeadingWS s.data).reverse).reverse⟩

/-- Python `str.lower()` on the ASCII range the statuses use. -/
def pyLower (s : String) : String :=
  ⟨s.data.map Char.toLower⟩

/-- The normalisation `update` applies to each item before validating:
`content.strip()`, `status.lower()`, `activeForm.strip()`. -/
def normalizeItem (item : TodoItem) : TodoItem :=
  { content := pyStrip item.content
  , status := pyLower item.status
  , activeForm := pyStrip item.activeForm }

/-- An item passes the per-item checks of `TodoManager.update` exactly when
its stripped content and activeForm are nonempty and its lowercased status is
in the whitelist. -/
def validItemB (item : TodoItem) : Bool :=
  pyStrip item.content ≠ "" && allowedStatuses.contains (pyLower item.status)
    && pyStrip item.activeForm ≠ ""

/-- The validation loop of `TodoManager.update`: walk the items in order,
normalise each, and raise (return `.error`) at the first invalid one. -/
def validateItems : List TodoItem → Except String (List TodoItem)
  | [] => .ok []
  | item :: rest =>
    let c := pyStrip item.content
    let s := pyLower item.status
    let a := pyStrip item.activeForm
    if c = "" then .error "content required"
    else if ¬ allowedStatuses.contains s then .error ("invalid status " ++ s)
    else if a = "" then .error "activeForm required"
    else
      match validateItems rest with
      | .ok l => .ok (⟨c, s, a⟩ :: l)
      | .error e => .error e

/-- Number of `in_progress` items in a (normalised) list; the Python loop
counts these in `ip` as it validates. -/
def inProgressCount (l : List TodoItem) : Nat :=
  (l.filter (fun i => i.status = "in_progress")).length

/-- `TodoManager.update(items)`: validate every item, then enforce the
`> 20` and `> 1 in_progress` checks, and only then replace the stored list
(returned here as the `.ok` payload). -/
def TodoManager.update (items : List TodoItem) : Except String (List TodoItem) :=
  match validateItems items with
  | .error e => .error e
  | .ok validated =>
    if validated.length > 20 then .error "Max 20 todos"
    else if inProgressCount validated > 1 then .error "Only one in_progress allowed"
    else .ok validated

/-- `True` exactly when `TodoManager.update` succeeds. -/
def todoUpdateOk (items : List TodoItem) : Bool :=
  match TodoManager.update items with
  | .ok _ => true
  | .error _ => false

/-- The stored list after a `TodoWrite` tool call: the handler catches the
exception at the dispatch boundary, so a failed update leaves `self.items`
unchanged. -/
def applyTodoWrite (stored : List TodoItem) (items : List TodoItem) : List TodoItem :=
  match TodoManager.update items with
  | .ok l => l
  | .error _ => stored

/-- `TodoManager.has_open_items`: any item whose status is not `completed`. -/
def hasOpenItems (items : List TodoItem) : Bool :=
  items.any (fun i => i.status ≠ "completed")

/-! ## Conversation messages (the message dicts of the agent loops) -/

/-- A `tool_result` block payload.  In this runtime the loop always stores a
string (`str(output)`), but `microcompact` guards with `isinstance(str)`, so
the model keeps a non-string alternative. -/
inductive TRPayload where
  | str (s : String)
  | nonstr (tag : Nat)
deriving DecidableEq, Repr

/-- A content block of a conversation turn. -/
inductive Block where
  | text (s : String)
  | toolUse (id : String) (toolName : String)
  | toolResult (toolUseId : String) (content : TRPayload)
deriving DecidableEq, Repr

/-- Message content: either a plain string or a block sequence. -/
inductive Content where
  | str (s : String)
  | blocks (bs : List Block)
deriving DecidableEq, Repr

/-- A conversation turn: role (`user` or `assistant`) plus content. -/
structure Message where
  role : String
  content : Content
deriving DecidableEq, Repr

/-! ## Micro-compaction (`microcompact`, s06 section) -/

/-- Is a block a `tool_result`? (`part.get("type") == "tool_result"`). -/
def isToolResult : Block → Bool
  | .toolResult _ _ => true
  | _ => false

/-- The block list of a user turn whose content is a block sequence;
`none` for every other message.  `microcompact` scans exactly these
(`msg["role"] == "user" and isinstance(msg.get("content"), list)`). -/
def userBlocks? (m : Message) : Option (List Block) :=
  match m.content with
  | .blocks bs => if m.role = "user" then some bs else none
  | .str _ => none

/-- The tool results inside one block list, in order
(`part.get("type") == "tool_result"`). -/
def trOfBlocks : List Block → List Block
  | [] => []
  | .toolResult i p :: bs => .toolResult i p :: trOfBlocks bs
  | .text _ :: bs => trOfBlocks bs
  | .toolUse _ _ :: bs => trOfBlocks bs

/-- All tool results `microcompact` collects (`indices`), in order. -/
def trOfMessages : List Message → List Block
  | [] => []
  | m :: ms =>
    match userBlocks? m with
    | some bs => trOfBlocks bs ++ trOfMessages ms
    | none => trOfMessages ms

/-- Walk a block list; `k` is the running global index of the next tool
result.  A tool result with index below `cutoff` and a string payload longer
than 100 characters has its payload replaced by `[cleared]`. -/
def goBlocks (cutoff : Nat) : Nat → List Block → Nat × List Block
  | k, [] => (k, [])
  | k, .text s :: bs =>
    let r := goBlocks cutoff k bs
    (r.1, Block.text s :: r.2)
  | k, .toolUse i nm :: bs =>
    let r := goBlocks cutoff k bs
    (r.1, Block.toolUse i nm :: r.2)
  | k, .toolResult i (.nonstr t) :: bs =>
    let r := goBlocks cutoff (k + 1) bs
    (r.1, Block.toolResult i (.nonstr t) :: r.2)
  | k, .toolResult i (.str s) :: bs =>
    let b := if k < cutoff && s.length > 100
      then Block.toolResult i (.str "[cleared]")
      else Block.toolResult i (.str s)
    let r := goBlocks cutoff (k + 1) bs
    (r.1, b :: r.2)

/-- Walk the conversation, threading the global tool-result index through
the user turns whose content is a block list. -/
def goMessages (cutoff : Nat) : Nat → List Message → Nat × List Message
  | k, [] => (k, [])
  | k, m :: ms =>
    match userBlocks? m with
    | some bs =>
      let rb := goBlocks cutoff k bs
      let rm := goMessages cutoff rb.1 ms
      (rm.1, ⟨"user", .blocks rb.2⟩ :: rm.2)
    | none =>
      let rm := goMessages cutoff k ms
      (rm.1, m :: rm.2)

/-- `microcompact(messages)`: collect the tool results of user block turns;
if more than three, clear every long string payload except the last three.
The Python mutates in place; the model returns the rewritten list. -/
def microcompact (messages : List Message) : List Message :=
  let n := (trOfMessages messages).length
  if n ≤ 3 then messages
  else (goMessages (n - 3) 0 messages).2

/-- The skeleton of a message: everything except tool-result payloads
(role, content shape, text blocks, tool-use blocks, tool-result ids).
`microcompact` must leave this untouched. -/
def blockSkeleton : Block → Block
  | .toolResult id _ => .toolResult id (.nonstr 0)
  | b => b

/-- Message-level skeleton. -/
def msgSkeleton (m : Message) : Message :=
  match m with
  | ⟨r, .blocks bs⟩ => ⟨r, .blocks (bs.map blockSkeleton)⟩
  | m => m

/-- The per-index clearing rule as stated by the spec: the tool result with
global index `k` is cleared exactly when `k < cutoff` and its payload is a
string longer than 100 characters. -/
def clearRule (cutoff k : Nat) : Block → Block
  | .toolResult i (.str s) =>
    if k < cutoff && s.length > 100
    then .toolResult i (.str "[cleared]")
    else .toolResult i (.str s)
  | .toolResult i (.nonstr t) => .toolResult i (.nonstr t)
  | .text s => .text s
  | .toolUse i nm => .toolUse i nm

/-- Apply `clearRule` along a list, starting at index `k`. -/
def clearList (cutoff : Nat) : Nat → List Block → List Block
  | _, [] => []
  | k, b :: bs => clearRule cutoff k b :: clearList cutoff (k + 1) bs

/-! ## Auto-compaction (`auto_compact`, s06 section) -/

/-- The transcript filename `auto_compact` writes:
`.transcripts/transcript_<unix-seconds>.jsonl`. -/
def transcriptPath (now : Nat) : String :=
  ".transcripts/transcript_" ++ toString now ++ ".jsonl"

/-- The transcripts directory as a store: path to list of JSONL lines, one
message per line.  Serialisation is bijective, so a line is modelled by the
message it encodes. -/
abbrev TranscriptFS := List (String × List Message)

/-- Write (create or overwrite) a transcript file. -/
def fsWrite (fs : TranscriptFS) (path : String) (lines : List Message) : TranscriptFS :=
  (path, lines) :: fs.filter (fun e => e.1 ≠ path)

/-- Look a transcript up by path. -/
def fsRead (fs : TranscriptFS) (path : String) : Option (List Message) :=
  (fs.find? (fun e => e.1 = path)).map (fun e => e.2)

/-- `auto_compact(messages)`: persist every message as one JSONL line at the
timestamped path, ask the LLM for a summary (`summary` is the opaque text the
call returns), and replace the conversation with the two fixed turns. -/
def autoCompact (fs : TranscriptFS) (messages : List Message) (summary : String)
    (now : Nat) : TranscriptFS × List Message :=
  let path := transcriptPath now
  ( fsWrite fs path messages
  , [ ⟨"user", .str ("[Compressed. Transcript: " ++ path ++ "]\n" ++ summary)⟩
    , ⟨"assistant", .str "Understood. Continuing with summary context."⟩ ] )

/-- `TOKEN_THRESHOLD` in `s_full.py`. -/
def TOKEN_THRESHOLD : Nat := 100000

/-- `estimate_tokens`: length of the JSON encoding divided by 4.  The JSON
encoder is opaque to the claims, so its length function is a parameter. -/
def estimateTokens (encodeLen : List Message → Nat) (messages : List Message) : Nat :=
  encodeLen messages / 4

/-- The auto-compaction step at the top of `agent_loop`: compact exactly when
the token estimate exceeds the threshold. -/
def agentLoopCompact (encodeLen : List Message → Nat) (fs : TranscriptFS)
    (messages : List Message) (summary : String) (now : Nat) :
    TranscriptFS × List Message :=
  if estimateTokens encodeLen messages > TOKEN_THRESHOLD
  then autoCompact fs messages summary now
  else (fs, messages)

/-! ## Message bus (`MessageBus`, s09 section) -/

/-- One inbox message, mirroring the JSON object `send` appends
(`type`, `from`, `content`, `timestamp`; the optional `extra` keys are not
needed by the claims).  `from` is a Lean keyword, so the field is `sender`. -/
structure InboxMsg where
  type : String
  sender : String
  content : String
  timestamp : Nat
deriving DecidableEq, Repr

/-- The inbox directory: recipient name to the list of parsed lines of
`<inbox-dir>/<name>.jsonl` (a missing file reads as the empty list, exactly
as `read_inbox` treats it). -/
abbrev Inboxes := String → List InboxMsg

/-- `MessageBus.send`: append one JSON line to the recipient inbox. -/
def MessageBus.send (boxes : Inboxes) (sender recipient content msgType : String)
    (ts : Nat) : Inboxes :=
  fun n =>
    if n = recipient then boxes n ++ [⟨msgType, sender, content, ts⟩] else boxes n

/-- `MessageBus.read_inbox`: parse every line in order, truncate the file to
zero bytes, and return the parsed messages. -/
def MessageBus.readInbox (boxes : Inboxes) (name : String) :
    List InboxMsg × Inboxes :=
  (boxes name, fun n => if n = name then [] else boxes n)

/-- Fold a batch of sends to one recipient through the bus. -/
def sendAll (boxes : Inboxes) (recipient : String) (msgs : List InboxMsg) : Inboxes :=
  msgs.foldl
    (fun b m => MessageBus.send b m.sender recipient m.content m.type m.timestamp)
    boxes

/-! ## Task board (`TaskManager`, s07 section) -/

/-- One durable task record (`task_<id>.json`).  `owner` is `none` for the
JSON `null`; `blockedBy` and `blocks` are id lists with set semantics. -/
structure Task where
  id : Nat
  subject : String
  description : String
  status : String
  owner : Option String
  blockedBy : List Nat
  blocks : List Nat
deriving DecidableEq, Repr

/-- The tasks directory: the set of task files, one record each. -/
abbrev Board := List Task

/-- Load a task by id (`_load` reads `task_<tid>.json`). -/
def findTask : Board → Nat → Option Task
  | [], _ => none
  | t :: ts, tid => if t.id = tid then some t else findTask ts tid

/-- Does a task file with this id exist? -/
def boardHas (board : Board) (tid : Nat) : Bool :=
  board.any (fun t => t.id = tid)

/-- `_save`: write `task_<id>.json`, overwriting an existing file or creating
a new one. -/
def saveTask (board : Board) (t : Task) : Board :=
  if board.any (fun u => u.id = t.id)
  then board.map (fun u => if u.id = t.id then t else u)
  else board ++ [t]

/-- `_next_id`: one more than the maximum existing id (0 when empty). -/
def nextId (board : Board) : Nat :=
  (board.map Task.id).foldr max 0 + 1

/-- `TaskManager.create`: allocate the next id and write a pending task. -/
def TaskManager.create (board : Board) (subject description : String) : Board :=
  saveTask board
    { id := nextId board, subject := subject, description := description
    , status := "pending", owner := none, blockedBy := [], blocks := [] }

/-- Python truthiness of the optional `status` argument (None and `""` are
falsy). -/
def statusArg : Option String → Option String
  | some s => if s = "" then none else some s
  | none => none

/-- Python truthiness of an optional id-list argument (None and `[]` are
falsy). -/
def listArg : Option (List Nat) → Option (List Nat)
  | some l => if l = [] then none else some l
  | none => none

/-- The merged status field: the truthy `status` argument overrides, else
the stored status stays (`if status: task["status"] = status`). -/
def mergeStatus (old : String) (arg : Option String) : String :=
  match statusArg arg with
  | some s => s
  | none => old

/-- The merged id-set field for `add_blocked_by` / `add_blocks`:
`list(set(old + new))` for a truthy argument, modelled by `dedup`, which
keeps the same membership. -/
def mergeIds (old : List Nat) (arg : Option (List Nat)) : List Nat :=
  match listArg arg with
  | some l => (old ++ l).dedup
  | none => old

/-- The in-memory record after `update` merges the truthy arguments into the
loaded task. -/
def mergedTask (t0 : Task) (status : Option String)
    (addBlockedBy addBlocks : Option (List Nat)) : Task :=
  { t0 with
    status := mergeStatus t0.status status,
    blockedBy := mergeIds t0.blockedBy addBlockedBy,
    blocks := mergeIds t0.blocks addBlocks }

/-- One task under the completion sweep: a file listing `tid` in `blockedBy`
is rewritten with `tid` removed (`list.remove` drops the first occurrence;
the lists are duplicate free). -/
def sweepTask (tid : Nat) (u : Task) : Task :=
  if tid ∈ u.blockedBy then { u with blockedBy := u.blockedBy.erase tid } else u

/-- The completion sweep inside `TaskManager.update` over the whole tasks
directory. -/
def sweepCompleted (board : Board) (tid : Nat) : Board :=
  board.map (sweepTask tid)

/-- `TaskManager.update(tid, status, add_blocked_by, add_blocks)`: load the
task, merge the truthy fields into the in-memory record, run the completion
sweep over the files when the new status is `completed`, delete the file when
it is `deleted` (the merge arguments are dead in that branch, as in the
Python early return), and otherwise save the merged record — which,
mirroring the code, overwrites whatever the sweep wrote for this id. -/
def TaskManager.update (board : Board) (tid : Nat) (status : Option String)
    (addBlockedBy addBlocks : Option (List Nat)) : Except String Board :=
  match findTask board tid with
  | none => .error ("Task " ++ toString tid ++ " not found")
  | some t0 =>
    if statusArg status = some "deleted" then
      .ok (board.filter (fun u => u.id ≠ tid))
    else
      .ok (saveTask
        (if statusArg status = some "completed"
          then sweepCompleted board tid else board)
        (mergedTask t0 status addBlockedBy addBlocks))

/-- `TaskManager.claim(tid, owner)`: set owner and `in_progress`
unconditionally (no claimability check). -/
def TaskManager.claim (board : Board) (tid : Nat) (owner : String) :
    Except String Board :=
  match findTask board tid with
  | none => .error ("Task " ++ toString tid ++ " not found")
  | some t0 =>
    .ok (saveTask board { t0 with owner := some owner, status := "in_progress" })

/-- Did an `Except`-returning board operation succeed? -/
def boardOpOk : Except String Board → Bool
  | .ok _ => true
  | .error _ => false

/-- A board mutation issued through the tool surface. -/
inductive TaskOp where
  | create (subject description : String)
  | update (tid : Nat) (status : Option String)
      (addBlockedBy addBlocks : Option (List Nat))
  | claim (tid : Nat) (owner : String)
deriving Repr

/-- Run one operation; a raised error is caught at the dispatch boundary and
leaves the board unchanged. -/
def applyOp (board : Board) : TaskOp → Board
  | .create s d => TaskManager.create board s d
  | .update tid st bb bl =>
    match TaskManager.update board tid st bb bl with
    | .ok b => b
    | .error _ => board
  | .claim tid o =>
    match TaskManager.claim board tid o with
    | .ok b => b
    | .error _ => board

/-- Run a sequence of operations from a starting board. -/
def runOps (board : Board) : List TaskOp → Board
  | [] => board
  | op :: ops => runOps (applyOp board op) ops

/-- Some task on the board with this id is completed. -/
def completedOn (board : Board) (b : Nat) : Prop :=
  ∃ t ∈ board, t.id = b ∧ t.status = "completed"

/-- The dependency-consistency property of spec P3, restricted to ids that
still resolve on the board: no `blockedBy` entry names a completed task. -/
def depConsistent (board : Board) : Prop :=
  ∀ t ∈ board, ∀ b ∈ t.blockedBy, ¬ completedOn board b

/-- Structural well-formedness the file layout guarantees: ids are unique
(one file per id), `blockedBy` lists are duplicate free (built by
`list(set(...))`), and no task blocks on itself. -/
def boardWF (board : Board) : Prop :=
  (board.map Task.id).Nodup ∧
    ∀ t ∈ board, t.blockedBy.Nodup ∧ t.id ∉ t.blockedBy

/-- The guard of the amended dependency claim: an `add_blocked_by` argument
may only add ids different from the target task that do not name a completed
task currently on the board. -/
def addOkB (board : Board) (tid : Nat) (l : List Nat) : Bool :=
  l.all (fun b => b ≠ tid && board.all (fun t => t.id ≠ b || t.status ≠ "completed"))

/-- Guard for one operation. -/
def opOkB (board : Board) : TaskOp → Bool
  | .update tid _ (some l) _ => addOkB board tid l
  | _ => true

/-- Guard along a whole operation sequence, evaluated against the evolving
board. -/
def goodOps (board : Board) : List TaskOp → Bool
  | [] => true
  | op :: ops => opOkB board op && goodOps (applyOp board op) ops

/-- The task-board invariant the amended dependency claim establishes. -/
def TaskInv (board : Board) : Prop :=
  boardWF board ∧ depConsistent board

/-- Operation sequence refuting claim P3 as stated: complete task 1, then
add it to task 2 as a blocker — `add_blocked_by` is never validated. -/
def c3Ops : List TaskOp :=
  [ .create "a" "", .create "b" ""
  , .update 1 (some "completed") none none
  , .update 2 none (some [1]) none ]

/-- A guarded operation sequence: the blocker is added while task 1 is still
pending, and the completion sweep then removes it. -/
def c3GoodOps : List TaskOp :=
  [ .create "a" "", .create "b" ""
  , .update 2 none (some [1]) none
  , .update 1 (some "completed") none none ]

/-- Operation sequence refuting claim P6 as stated: task 1 is completed, yet
`claim` succeeds on it. -/
def c4Ops : List TaskOp :=
  [ .create "a" "", .update 1 (some "completed") none none ]

/-! ## Teammate idle phase (`TeammateManager._loop`, s09/s11 sections) -/

/-- Python truthiness of the `owner` field (`not t.get("owner")`): `None`
and the empty string are falsy. -/
def ownerFalsy : Option String → Bool
  | none => true
  | some s => s = ""

/-- The idle-phase claimability test:
`status == "pending" and not owner and not blockedBy`. -/
def claimableB (t : Task) : Bool :=
  t.status = "pending" && ownerFalsy t.owner && t.blockedBy.isEmpty

/-- The idle-phase board scan: collect the claimable tasks in file order and
take the first (`unclaimed[0]`). -/
def idleScan (board : Board) : Option Task :=
  (board.filter claimableB).head?

/-- The outcome of one idle-phase poll tick. -/
inductive TickResult where
  | shutdown
  | resumeWork (appended : List InboxMsg)
  | autoClaim (t : Task)
  | keepPolling
deriving Repr, DecidableEq

/-- One poll tick of the idle phase: drain the inbox first; a nonempty drain
resumes work (or shuts down on a `shutdown_request`) without touching the
board; only an empty drain scans for a claimable task. -/
def idleTick (inbox : List InboxMsg) (board : Board) : TickResult :=
  if inbox.isEmpty then
    match idleScan board with
    | some t => .autoClaim t
    | none => .keepPolling
  else if inbox.any (fun m => m.type = "shutdown_request") then .shutdown
  else .resumeWork inbox

/-! ## Lead agent loop: nag policy (`agent_loop`, s03 reminder) -/

/-- A tool call executed in one lead round, as far as the nag policy can
observe it: a `TodoWrite` with its items, or any other tool. -/
inductive LeadTool where
  | todoWrite (items : List TodoItem)
  | other (toolName : String)
deriving Repr

/-- Execute one block against the todo store. -/
def execBlock (todos : List TodoItem) : LeadTool → List TodoItem
  | .todoWrite items => applyTodoWrite todos items
  | .other _ => todos

/-- Todo store after all blocks of a round. -/
def roundTodos (todos : List TodoItem) (blocks : List LeadTool) : List TodoItem :=
  blocks.foldl execBlock todos

/-- Did the round execute a `TodoWrite`? (`used_todo`). -/
def roundHasTodo (blocks : List LeadTool) : Bool :=
  blocks.any (fun b => match b with | .todoWrite _ => true | .other _ => false)

/-- The loop state the nag policy reads: the `rounds_without_todo` counter
and the todo store. -/
structure NagState where
  roundsWithoutTodo : Nat
  todos : List TodoItem
deriving Repr

/-- One tool-executing round of `agent_loop`: run the blocks, update the
counter (`0 if used_todo else +1`), and decide whether the reminder block is
prepended (`has_open_items and counter >= 3`). -/
def execRound (st : NagState) (blocks : List LeadTool) : NagState × Bool :=
  let todos2 := roundTodos st.todos blocks
  let counter2 := if roundHasTodo blocks then 0 else st.roundsWithoutTodo + 1
  (⟨counter2, todos2⟩, hasOpenItems todos2 && decide (3 ≤ counter2))

/-- Fold a sequence of tool-executing rounds. -/
def runRounds (st : NagState) : List (List LeadTool) → NagState
  | [] => st
  | r :: rs => runRounds (execRound st r).1 rs

/-! ## Path containment (`safe_path`, `run_write`, `run_edit`, `run_read`) -/

/-- A resolved absolute path, as its component list. -/
abbrev RPath := List String

/-- A path argument before resolution: absolute or relative to the working
directory. -/
inductive InPath where
  | abs (comps : List String)
  | rel (comps : List String)
deriving DecidableEq, Repr

/-- `Path.resolve` on components: drop `.`, let `..` pop. -/
def normalizeComps (comps : List String) : RPath :=
  comps.foldl
    (fun acc c =>
      if c = "." then acc
      else if c = ".." then acc.dropLast
      else acc ++ [c]) []

/-- Resolve a path argument against the working directory, as `safe_path`
does (`Path(p).resolve()` or `(WORKDIR / p).resolve()`). -/
def resolvePath (workdir : RPath) : InPath → RPath
  | .abs c => normalizeComps c
  | .rel c => normalizeComps (workdir ++ c)

/-- `Path.is_relative_to`: the working directory is a prefix of the path. -/
def insideWorkdir : RPath → RPath → Bool
  | _, [] => true
  | [], _ :: _ => false
  | a :: as, b :: bs => a = b && insideWorkdir as bs

/-- Render a path argument back to text for the result messages. -/
def renderPath : InPath → String
  | .abs c => "/" ++ String.intercalate "/" c
  | .rel c => String.intercalate "/" c

/-- `safe_path(p, allow_outside)`: resolve, then reject paths outside the
working directory unless `allow_outside` (WORKDIR is always set). -/
def safePath (workdir : RPath) (p : InPath) (allowOutside : Bool) :
    Except String RPath :=
  let path := resolvePath workdir p
  if !allowOutside && !insideWorkdir path workdir
  then .error ("Path escapes workspace: " ++ renderPath p)
  else .ok path

/-- The file store the write and edit tools act on. -/
abbrev FileFS := List (RPath × String)

/-- Write (create or overwrite) a file. -/
def ffsWrite (fs : FileFS) (path : RPath) (content : String) : FileFS :=
  (path, content) :: fs.filter (fun e => e.1 ≠ path)

/-- Read a file. -/
def ffsRead (fs : FileFS) (path : RPath) : Option String :=
  (fs.find? (fun e => e.1 = path)).map (fun e => e.2)

/-- `run_write(path, content, allow_outside)`: `safe_path`, create parents,
write; any exception is returned as an `Error:` string with the store
unchanged. -/
def runWrite (workdir : RPath) (fs : FileFS) (p : InPath) (content : String)
    (allowOutside : Bool) : String × FileFS :=
  match safePath workdir p allowOutside with
  | .error e => ("Error: " ++ e, fs)
  | .ok fp =>
    ("Wrote " ++ toString content.length ++ " bytes to " ++ renderPath p
    , ffsWrite fs fp content)

/-- `c.replace(old, new, 1)`: replace the first occurrence (with the Python
convention that an empty pattern matches at the start). -/
def replaceFirst (c old new : String) : String :=
  if old = "" then new ++ c
  else
    match c.splitOn old with
    | [] => c
    | [_] => c
    | first :: rest => first ++ new ++ String.intercalate old rest

/-- `old_text in c` (Python substring test). -/
def containsText (c old : String) : Bool :=
  old = "" || (c.splitOn old).length ≥ 2

/-- `run_edit(path, old_text, new_text, allow_outside)`. -/
def runEdit (workdir : RPath) (fs : FileFS) (p : InPath) (oldText newText : String)
    (allowOutside : Bool) : String × FileFS :=
  match safePath workdir p allowOutside with
  | .error e => ("Error: " ++ e, fs)
  | .ok fp =>
    match ffsRead fs fp with
    | none => ("Error: file not found", fs)
    | some c =>
      if !containsText c oldText then
        ("Error: Text not found in " ++ renderPath p, fs)
      else
        ("Edited " ++ renderPath p, ffsWrite fs fp (replaceFirst c oldText newText))

/-- `run_read(path, limit)`: `safe_path` with `allow_outside=True`, then read
(splitlines is modelled as splitting on the newline).  The `if limit` guard
is Python truthiness, so `limit=0` is ignored. -/
def runRead (workdir : RPath) (fs : FileFS) (p : InPath) (limit : Option Nat) :
    String :=
  match safePath workdir p true with
  | .error e => "Error: " ++ e
  | .ok fp =>
    match ffsRead fs fp with
    | none => "Error: file not found"
    | some c =>
      let lines := c.splitOn "\n"
      let lines := match limit with
        | some n =>
          if n ≠ 0 && n < lines.length then
            lines.take n ++ ["... (" ++ toString (lines.length - n) ++ " more)"]
          else lines
        | none => lines
      (String.intercalate "\n" lines).take 50000

/-- The `write_file` tool handler: `run_write(path, content)` with the
`allow_outside` parameter left at its Python default, `True`. -/
def writeFileTool (workdir : RPath) (fs : FileFS) (p : InPath) (content : String) :
    String × FileFS :=
  runWrite workdir fs p content true

/-- The `edit_file` tool handler: default `allow_outside=True`. -/
def editFileTool (workdir : RPath) (fs : FileFS) (p : InPath)
    (oldText newText : String) : String × FileFS :=
  runEdit workdir fs p oldText newText true

/-! ## Helper lemmas: todo validation -/

theorem validateItems_of_all (items : List TodoItem)
    (h : ∀ i ∈ items, validItemB i = true) :
    validateItems items = Except.ok (items.map normalizeItem) := by
  induction items with
  | nil => rfl
  | cons a l ih =>
    have ha := h a (List.mem_cons_self a l)
    have hl : ∀ i ∈ l, validItemB i = true := fun i hi => h i (List.mem_cons_of_mem a hi)
    simp only [validItemB, Bool.and_eq_true, decide_eq_true_eq] at ha
    obtain ⟨⟨h1, h2⟩, h3⟩ := ha
    simp only [validateItems, if_neg h1, if_neg (not_not_intro h2), if_neg h3,
      ih hl, List.map_cons]
    rfl

theorem validateItems_err (items : List TodoItem)
    (h : ¬ ∀ i ∈ items, validItemB i = true) :
    ∃ e, validateItems items = Except.error e := by
  induction items with
  | nil => exact absurd (fun i hi => absurd hi (List.not_mem_nil i)) h
  | cons a l ih =>
    by_cases ha : validItemB a = true
    · have hl : ¬ ∀ i ∈ l, validItemB i = true := by
        intro hl
        exact h (fun i hi => by
          rcases List.mem_cons.mp hi with rfl | hi
          · exact ha
          · exact hl i hi)
      obtain ⟨e, he⟩ := ih hl
      simp only [validItemB, Bool.and_eq_true, decide_eq_true_eq] at ha
      obtain ⟨⟨h1, h2⟩, h3⟩ := ha
      refine ⟨e, ?_⟩
      simp only [validateItems, if_neg h1, if_neg (not_not_intro h2), if_neg h3, he]
    · simp only [validItemB, Bool.and_eq_true, decide_eq_true_eq, not_and] at ha
      by_cases h1 : pyStrip a.content = ""
      · exact ⟨"content required", by simp only [validateItems, if_pos h1]⟩
      · by_cases h2 : allowedStatuses.contains (pyLower a.status) = true
        · have h3 := ha ⟨h1, h2⟩
          rw [not_not] at h3
          refine ⟨"activeForm required", ?_⟩
          simp only [validateItems, if_neg h1, if_neg (not_not_intro h2), if_pos h3]
        · refine ⟨"invalid status " ++ pyLower a.status, ?_⟩
          simp only [validateItems, if_neg h1, if_pos h2]

theorem inProgressCount_map_normalize (items : List TodoItem) :
    inProgressCount (items.map normalizeItem) =
      (items.filter (fun i => pyLower i.status = "in_progress")).length := by
  unfold inProgressCount
  rw [List.filter_map]
  simp only [List.length_map]
  rfl

theorem update_of_all (items : List TodoItem)
    (hv : ∀ i ∈ items, validItemB i = true) :
    TodoManager.update items =
      if items.length > 20 then Except.error "Max 20 todos"
      else if (items.filter (fun i => pyLower i.status = "in_progress")).length > 1
        then Except.error "Only one in_progress allowed"
        else Except.ok (items.map normalizeItem) := by
  unfold TodoManager.update
  rw [validateItems_of_all items hv]
  show (if (items.map normalizeItem).length > 20 then Except.error "Max 20 todos"
    else if inProgressCount (items.map normalizeItem) > 1
      then Except.error "Only one in_progress allowed"
      else Except.ok (items.map normalizeItem)) = _
  rw [List.length_map, inProgressCount_map_normalize]

theorem todoUpdateOk_true_iff (items : List TodoItem) :
    todoUpdateOk items = true ↔ ∃ l, TodoManager.update items = Except.ok l := by
  unfold todoUpdateOk
  cases h : TodoManager.update items with
  | ok l => simp
  | error e => simp

theorem todoUpdateOk_iff (items : List TodoItem) :
    todoUpdateOk items = true ↔
      (∀ i ∈ items, validItemB i = true) ∧ items.length ≤ 20 ∧
        (items.filter (fun i => pyLower i.status = "in_progress")).length ≤ 1 := by
  rw [todoUpdateOk_true_iff]
  by_cases hv : ∀ i ∈ items, validItemB i = true
  · rw [update_of_all items hv]
    constructor
    · rintro ⟨l, hl⟩
      split_ifs at hl with h20 hip
      cases hl
      exact ⟨hv, by omega, by omega⟩
    · rintro ⟨-, h20, hip⟩
      exact ⟨items.map normalizeItem, by rw [if_neg (by omega), if_neg (by omega)]⟩
  · constructor
    · rintro ⟨l, hl⟩
      obtain ⟨e, he⟩ := validateItems_err items hv
      rw [TodoManager.update, he] at hl
      cases hl
    · rintro ⟨hv2, -, -⟩
      exact absurd hv2 hv

theorem todoUpdate_ok_elim (items l : List TodoItem)
    (h : TodoManager.update items = Except.ok l) :
    l = items.map normalizeItem ∧ inProgressCount l ≤ 1 := by
  by_cases hv : ∀ i ∈ items, validItemB i = true
  · rw [update_of_all items hv] at h
    split_ifs at h with h20 hip
    cases h
    refine ⟨rfl, ?_⟩
    rw [inProgressCount_map_normalize]
    omega
  · obtain ⟨e, he⟩ := validateItems_err items hv
    rw [TodoManager.update, he] at h
    cases h

/-! ## Claim C5: TodoWrite validation and atomic replacement -/

/-- The concrete input refuting the claim as stated: its content is a
non-empty string (one space), its status is literally in the allowed set,
there is one item and no `in_progress` item, yet the update fails, because
the code validates the stripped content. -/
def c5BadItems : List TodoItem := [⟨" ", "pending", "x"⟩]

/-- C5 (counterexample): the stated claim says `TodoManager.update` succeeds
iff every item has non-empty content, non-empty activeForm and a status in
the allowed set, the list has at most 20 items and at most one is
in_progress.  `c5BadItems` satisfies all of those conditions literally, yet
the update fails: the code checks the whitespace-stripped content. -/
theorem todo_update_claim_counterexample :
    (∀ i ∈ c5BadItems, i.content ≠ "" ∧ i.activeForm ≠ "" ∧
      i.status ∈ allowedStatuses) ∧
    c5BadItems.length ≤ 20 ∧
    (c5BadItems.filter (fun i => i.status = "in_progress")).length ≤ 1 ∧
    todoUpdateOk c5BadItems = false := by
  refine ⟨?_, by decide, by decide, ?_⟩
  · intro i hi
    rcases List.mem_singleton.mp hi with rfl
    refine ⟨by decide, by decide, by decide⟩
  · decide

/-- C5 (amended): `TodoManager.update(items)` succeeds iff every item has
non-empty *trimmed* content and activeForm and a *lowercased* status in
the allowed set, at most 20 items, and at most one item whose lowercased
status is `in_progress`.  On success the stored list becomes exactly the
normalised items and has at most one `in_progress` item; on failure the
stored list is unchanged. -/
theorem todo_update_characterisation :
    ∀ items : List TodoItem,
      (todoUpdateOk items = true ↔
        (∀ i ∈ items, validItemB i = true) ∧ items.length ≤ 20 ∧
          (items.filter (fun i => pyLower i.status = "in_progress")).length ≤ 1) ∧
      (∀ l, TodoManager.update items = Except.ok l →
        l = items.map normalizeItem ∧ inProgressCount l ≤ 1) ∧
      (∀ stored, todoUpdateOk items = false → applyTodoWrite stored items = stored) := by
  intro items
  refine ⟨todoUpdateOk_iff items, fun l h => todoUpdate_ok_elim items l h, ?_⟩
  intro stored h
  unfold applyTodoWrite
  unfold todoUpdateOk at h
  cases hu : TodoManager.update items with
  | ok l => rw [hu] at h; cases h
  | error e => rfl

/-- Witness for `todo_update_characterisation` at a concrete valid input. -/
theorem todo_update_characterisation_witness :
    todoUpdateOk [⟨"write tests", "in_progress", "writing tests"⟩] = true ∧
    TodoManager.update [⟨"write tests", "in_progress", "writing tests"⟩] =
      Except.ok [⟨"write tests", "in_progress", "writing tests"⟩] := by
  have h := todo_update_characterisation [⟨"write tests", "in_progress", "writing tests"⟩]
  refine ⟨(h.1).mpr ⟨?_, by decide, by decide⟩, by rfl⟩
  intro i hi
  rcases List.mem_singleton.mp hi with rfl
  decide

/-! ## Claim C10: the empty TodoWrite clears the tracker -/

/-- C10: `TodoManager.update([])` always succeeds and leaves the stored list
empty, after which `has_open_items()` is false; and `has_open_items` is true
exactly when some stored item is not completed, so the nag reminder stays
off until a non-completed todo is written again. -/
theorem todo_update_empty_clears :
    TodoManager.update [] = Except.ok [] ∧
    (∀ stored : List TodoItem, applyTodoWrite stored [] = []) ∧
    hasOpenItems [] = false ∧
    (∀ items : List TodoItem,
      hasOpenItems items = true ↔ ∃ i ∈ items, i.status ≠ "completed") := by
  refine ⟨rfl, fun stored => rfl, rfl, ?_⟩
  intro items
  simp [hasOpenItems, List.any_eq_true]

/-! ## Claim C2: inbox at-most-once delivery -/

theorem sendAll_apply_self (r : String) (msgs : List InboxMsg) :
    ∀ boxes : Inboxes, sendAll boxes r msgs r = boxes r ++ msgs := by
  induction msgs with
  | nil => intro boxes; simp [sendAll]
  | cons m ms ih =>
    intro boxes
    obtain ⟨mt, msd, mc, mts⟩ := m
    have step : sendAll boxes r (⟨mt, msd, mc, mts⟩ :: ms) =
        sendAll (MessageBus.send boxes msd r mc mt mts) r ms := rfl
    rw [step, ih]
    simp [MessageBus.send]

/-- C2: starting from an inbox that is empty (the state right after the
previous drain), appending any batch of sends and then draining once returns
exactly the appended messages in order and truncates the file, so an
immediate second drain returns the empty list. -/
theorem inbox_at_most_once (boxes : Inboxes) (r : String) (msgs : List InboxMsg)
    (h : boxes r = []) :
    (MessageBus.readInbox (sendAll boxes r msgs) r).1 = msgs ∧
    (MessageBus.readInbox (sendAll boxes r msgs) r).2 r = [] ∧
    (MessageBus.readInbox ((MessageBus.readInbox (sendAll boxes r msgs) r).2) r).1
      = [] := by
  refine ⟨?_, by simp [MessageBus.readInbox], by simp [MessageBus.readInbox]⟩
  show sendAll boxes r msgs r = msgs
  rw [sendAll_apply_self, h, List.nil_append]

/-- Witness for `inbox_at_most_once`: one `ping` from the lead. -/
theorem inbox_at_most_once_witness :
    (MessageBus.readInbox
      (sendAll (fun _ => []) "worker" [⟨"message", "lead", "ping", 0⟩]) "worker").1
      = [⟨"message", "lead", "ping", 0⟩] ∧
    (MessageBus.readInbox
      ((MessageBus.readInbox
        (sendAll (fun _ => []) "worker" [⟨"message", "lead", "ping", 0⟩]) "worker").2)
      "worker").1 = [] := by
  have h := inbox_at_most_once (fun _ => []) "worker"
    [⟨"message", "lead", "ping", 0⟩] rfl
  exact ⟨h.1, h.2.2⟩

/-! ## Claim C9: idle-phase inbox priority over auto-claim -/

/-- C9: in an idle-phase poll tick, the inbox is drained before the board is
scanned: a nonempty drain with no `shutdown_request` resumes the work phase
with the drained messages appended and claims no task, whatever the board
holds. -/
theorem idle_tick_inbox_first (inbox : List InboxMsg) (board : Board)
    (h1 : inbox ≠ [])
    (h2 : ∀ m ∈ inbox, m.type ≠ "shutdown_request") :
    idleTick inbox board = .resumeWork inbox := by
  unfold idleTick
  have he : inbox.isEmpty = false := by
    cases inbox with
    | nil => exact absurd rfl h1
    | cons a l => rfl
  rw [he]
  have ha : inbox.any (fun m => m.type = "shutdown_request") = false := by
    rw [List.any_eq_false]
    intro m hm
    simpa using h2 m hm
  simp [ha]

/-- Witness for `idle_tick_inbox_first`: one ordinary message beats a board
holding a claimable task. -/
theorem idle_tick_inbox_first_witness :
    idleTick [⟨"message", "lead", "hello", 3⟩]
        [⟨7, "scan", "", "pending", none, [], []⟩] =
      .resumeWork [⟨"message", "lead", "hello", 3⟩] ∧
    claimableB ⟨7, "scan", "", "pending", none, [], []⟩ = true := by
  refine ⟨?_, by decide⟩
  exact idle_tick_inbox_first _ _ (by decide) (by
    intro m hm
    rcases List.mem_singleton.mp hm with rfl
    decide)

/-! ## Claim C1: auto-compaction replaces the conversation and archives it -/

/-- C1: whenever the token estimate exceeds the threshold, the agent-loop
compaction step replaces the conversation with exactly two turns — the user
turn `[Compressed. Transcript: <path>]` + newline + summary and the fixed
assistant acknowledgement — and the transcript store then holds, at the path
named in the first turn, every pre-compaction message as one line each, in
order.  The manual `compress` path calls the same `auto_compact`. -/
theorem auto_compact_two_turns_and_archive
    (encodeLen : List Message → Nat) (fs : TranscriptFS)
    (messages : List Message) (summary : String) (now : Nat)
    (h : TOKEN_THRESHOLD < estimateTokens encodeLen messages) :
    (agentLoopCompact encodeLen fs messages summary now).2 =
      [ ⟨"user", .str ("[Compressed. Transcript: " ++ transcriptPath now ++ "]\n"
          ++ summary)⟩
      , ⟨"assistant", .str "Understood. Continuing with summary context."⟩ ] ∧
    (agentLoopCompact encodeLen fs messages summary now).2.length = 2 ∧
    fsRead (agentLoopCompact encodeLen fs messages summary now).1
        (transcriptPath now) = some messages := by
  unfold agentLoopCompact
  rw [if_pos h]
  refine ⟨rfl, rfl, ?_⟩
  simp [autoCompact, fsRead, fsWrite]

/-- Witness for `auto_compact_two_turns_and_archive` at a concrete oversized
conversation. -/
theorem auto_compact_two_turns_and_archive_witness :
    (agentLoopCompact (fun _ => 400004) [] [⟨"user", .str "hi"⟩] "sum" 5).2 =
      [ ⟨"user", .str ("[Compressed. Transcript: .transcripts/transcript_5.jsonl]\nsum")⟩
      , ⟨"assistant", .str "Understood. Continuing with summary context."⟩ ] ∧
    fsRead (agentLoopCompact (fun _ => 400004) [] [⟨"user", .str "hi"⟩] "sum" 5).1
      ".transcripts/transcript_5.jsonl" = some [⟨"user", .str "hi"⟩] := by
  have h := auto_compact_two_turns_and_archive (fun _ => 400004) []
    [⟨"user", .str "hi"⟩] "sum" 5 (by decide)
  exact ⟨h.1, h.2.2⟩

/-! ## Claim C6: path containment for write and edit -/

/-- C6 (counterexample): the stated claim says write operations reject
resolved paths outside the working directory unless the caller explicitly
opts into `allow_outside=true`.  But the Python default of `run_write` is
`allow_outside=True`, and the `write_file` tool handler passes no
`allow_outside` at all — so a write to `/etc/x` from workdir `/home/proj`
succeeds with no opt-in. -/
theorem write_outside_default_counterexample :
    insideWorkdir (resolvePath ["home", "proj"] (.abs ["etc", "x"]))
      ["home", "proj"] = false ∧
    writeFileTool ["home", "proj"] [] (.abs ["etc", "x"]) "hi" =
      ("Wrote 2 bytes to /etc/x", [(["etc", "x"], "hi")]) := by
  constructor
  · decide
  · rfl

/-- C6 (amended): `write_file` and `edit_file` default `allow_outside` to
true, so by default they operate outside the working directory; they reject
a resolved path that is not a descendant of the working directory only when
the caller passes `allow_outside=false`, leaving the store unchanged;
`read_file` always resolves with `allow_outside=True` and so never raises the
containment error. -/
theorem path_containment_characterisation :
    (∀ (wd : RPath) (fs : FileFS) (p : InPath) (content : String),
      insideWorkdir (resolvePath wd p) wd = false →
      runWrite wd fs p content false =
        ("Error: " ++ ("Path escapes workspace: " ++ renderPath p), fs)) ∧
    (∀ (wd : RPath) (fs : FileFS) (p : InPath) (oldT newT : String),
      insideWorkdir (resolvePath wd p) wd = false →
      runEdit wd fs p oldT newT false =
        ("Error: " ++ ("Path escapes workspace: " ++ renderPath p), fs)) ∧
    (∀ (wd : RPath) (fs : FileFS) (p : InPath) (content : String),
      writeFileTool wd fs p content =
        ("Wrote " ++ toString content.length ++ " bytes to " ++ renderPath p,
          ffsWrite fs (resolvePath wd p) content)) ∧
    (∀ (wd : RPath) (p : InPath), safePath wd p true = Except.ok (resolvePath wd p)) := by
  refine ⟨?_, ?_, ?_, ?_⟩
  · intro wd fs p content h
    simp [runWrite, safePath, h]
  · intro wd fs p oldT newT h
    simp [runEdit, safePath, h]
  · intro wd fs p content
    rfl
  · intro wd p
    rfl

/-- Witness for `path_containment_characterisation`: a rejected outside
write with `allow_outside=false`. -/
theorem path_containment_characterisation_witness :
    runWrite ["home", "proj"] [] (.abs ["etc", "x"]) "hi" false =
      ("Error: Path escapes workspace: /etc/x", []) := by
  have h := path_containment_characterisation.1 ["home", "proj"] []
    (.abs ["etc", "x"]) "hi" (by decide)
  rw [h]
  decide

/-! ## Helper lemmas: micro-compaction -/

theorem clearList_append (cutoff : Nat) :
    ∀ (l1 : List Block) (k : Nat) (l2 : List Block),
      clearList cutoff k (l1 ++ l2) =
        clearList cutoff k l1 ++ clearList cutoff (k + l1.length) l2 := by
  intro l1
  induction l1 with
  | nil => intro k l2; simp [clearList]
  | cons b bs ih =>
    intro k l2
    have h1 : clearList cutoff k ((b :: bs) ++ l2)
        = clearRule cutoff k b :: clearList cutoff (k + 1) (bs ++ l2) := rfl
    have h2 : clearList cutoff k (b :: bs)
        = clearRule cutoff k b :: clearList cutoff (k + 1) bs := rfl
    rw [h1, h2, ih (k + 1) l2, List.cons_append, List.length_cons]
    have h3 : k + 1 + bs.length = k + (bs.length + 1) := by omega
    rw [h3]

theorem clearRule_of_ge (cutoff k : Nat) (h : cutoff ≤ k) (b : Block) :
    clearRule cutoff k b = b := by
  cases b with
  | text s => rfl
  | toolUse i nm => rfl
  | toolResult i p =>
    cases p with
    | nonstr t => rfl
    | str s =>
      have : (decide (k < cutoff) && decide (s.length > 100)) = false := by
        simp [Nat.not_lt.mpr h]
      simp [clearRule, this]

theorem clearList_of_ge (cutoff : Nat) :
    ∀ (l : List Block) (k : Nat), cutoff ≤ k → clearList cutoff k l = l := by
  intro l
  induction l with
  | nil => intro k h; rfl
  | cons b bs ih =>
    intro k h
    simp only [clearList, clearRule_of_ge cutoff k h, ih (k + 1) (by omega)]

theorem clearList_zero (l : List Block) (k : Nat) : clearList 0 k l = l :=
  clearList_of_ge 0 l k (Nat.zero_le k)

theorem clearList_drop (cutoff : Nat) :
    ∀ (l : List Block) (k : Nat),
      (clearList cutoff k l).drop (cutoff - k) = l.drop (cutoff - k) := by
  intro l
  induction l with
  | nil => intro k; rfl
  | cons b bs ih =>
    intro k
    rcases Nat.lt_or_ge k cutoff with hk | hk
    · have hd : cutoff - k = (cutoff - (k + 1)) + 1 := by omega
      simp only [clearList, hd, List.drop_succ_cons]
      exact ih (k + 1)
    · have hd : cutoff - k = 0 := by omega
      rw [hd, List.drop_zero, List.drop_zero, clearList_of_ge cutoff _ k hk]

theorem goBlocks_spec (cutoff : Nat) :
    ∀ (bs : List Block) (k : Nat),
      (goBlocks cutoff k bs).1 = k + (trOfBlocks bs).length ∧
      (goBlocks cutoff k bs).2.map blockSkeleton = bs.map blockSkeleton ∧
      trOfBlocks (goBlocks cutoff k bs).2 = clearList cutoff k (trOfBlocks bs) := by
  intro bs
  induction bs with
  | nil => intro k; exact ⟨rfl, rfl, rfl⟩
  | cons b rest ih =>
    intro k
    cases b with
    | text s =>
      obtain ⟨ih1, ih2, ih3⟩ := ih k
      exact ⟨ih1, by simp only [goBlocks, List.map_cons, ih2], by
        simp only [goBlocks, trOfBlocks, ih3]⟩
    | toolUse i nm =>
      obtain ⟨ih1, ih2, ih3⟩ := ih k
      exact ⟨ih1, by simp only [goBlocks, List.map_cons, ih2], by
        simp only [goBlocks, trOfBlocks, ih3]⟩
    | toolResult i p =>
      cases p with
      | nonstr t =>
        obtain ⟨ih1, ih2, ih3⟩ := ih (k + 1)
        refine ⟨?_, by simp only [goBlocks, List.map_cons, ih2], ?_⟩
        · simp only [goBlocks, ih1, trOfBlocks, List.length_cons]
          omega
        · simp only [goBlocks, trOfBlocks, ih3, clearList, clearRule]
      | str s =>
        obtain ⟨ih1, ih2, ih3⟩ := ih (k + 1)
        refine ⟨?_, ?_, ?_⟩
        · simp only [goBlocks, ih1, trOfBlocks, List.length_cons]
          omega
        · simp only [goBlocks, List.map_cons, ih2]
          by_cases hc : (decide (k < cutoff) && decide (s.length > 100)) = true
          · simp [hc, blockSkeleton]
          · simp only [Bool.not_eq_true] at hc
            simp [hc, blockSkeleton]
        · by_cases hc : (decide (k < cutoff) && decide (s.length > 100)) = true
          · simp only [goBlocks, hc, if_true, trOfBlocks, ih3, clearList, clearRule]
          · simp only [Bool.not_eq_true] at hc
            simp only [goBlocks, hc, Bool.false_eq_true, if_false, trOfBlocks, ih3,
              clearList, clearRule]

theorem userBlocks?_some {m : Message} {bs : List Block}
    (h : userBlocks? m = some bs) : m.role = "user" ∧ m.content = .blocks bs := by
  rcases m with ⟨r, c⟩
  cases c with
  | str s => exact absurd h (by simp [userBlocks?])
  | blocks bs2 =>
    by_cases hr : r = "user"
    · have hu : userBlocks? ⟨r, .blocks bs2⟩ = some bs2 := by
        simp [userBlocks?, hr]
      rw [hu] at h
      cases h
      exact ⟨hr, rfl⟩
    · have hu : userBlocks? ⟨r, .blocks bs2⟩ = none := by
        simp [userBlocks?, hr]
      rw [hu] at h
      cases h

theorem goMessages_spec (cutoff : Nat) :
    ∀ (ms : List Message) (k : Nat),
      (goMessages cutoff k ms).1 = k + (trOfMessages ms).length ∧
      (goMessages cutoff k ms).2.map msgSkeleton = ms.map msgSkeleton ∧
      trOfMessages (goMessages cutoff k ms).2 =
        clearList cutoff k (trOfMessages ms) := by
  intro ms
  induction ms with
  | nil => intro k; exact ⟨rfl, rfl, rfl⟩
  | cons m rest ih =>
    intro k
    cases hu : userBlocks? m with
    | some bs =>
      obtain ⟨hrole, hcontent⟩ := userBlocks?_some hu
      have hm : m = ⟨"user", .blocks bs⟩ := by
        rcases m with ⟨r, c⟩
        simp only [Message.mk.injEq]
        exact ⟨hrole, hcontent⟩
      subst hm
      obtain ⟨hb1, hb2, hb3⟩ := goBlocks_spec cutoff bs k
      obtain ⟨ih1, ih2, ih3⟩ := ih (goBlocks cutoff k bs).1
      have hgo : goMessages cutoff k ((⟨"user", .blocks bs⟩ : Message) :: rest)
          = ((goMessages cutoff (goBlocks cutoff k bs).1 rest).1,
             (⟨"user", .blocks (goBlocks cutoff k bs).2⟩ : Message) ::
               (goMessages cutoff (goBlocks cutoff k bs).1 rest).2) := by
        simp [goMessages, userBlocks?]
      have htr : trOfMessages ((⟨"user", .blocks bs⟩ : Message) :: rest)
          = trOfBlocks bs ++ trOfMessages rest := by
        simp [trOfMessages, userBlocks?]
      have hhead : ∀ (bs2 : List Block) (ms2 : List Message),
          trOfMessages ((⟨"user", .blocks bs2⟩ : Message) :: ms2)
            = trOfBlocks bs2 ++ trOfMessages ms2 := by
        intro bs2 ms2
        simp [trOfMessages, userBlocks?]
      refine ⟨?_, ?_, ?_⟩
      · rw [hgo, htr]
        show (goMessages cutoff (goBlocks cutoff k bs).1 rest).1 = _
        rw [ih1, hb1, List.length_append]
        omega
      · rw [hgo]
        show msgSkeleton ⟨"user", .blocks (goBlocks cutoff k bs).2⟩ ::
          List.map msgSkeleton (goMessages cutoff (goBlocks cutoff k bs).1 rest).2
            = _
        rw [List.map_cons, ih2]
        have hA : msgSkeleton ⟨"user", .blocks (goBlocks cutoff k bs).2⟩
            = ⟨"user", .blocks ((goBlocks cutoff k bs).2.map blockSkeleton)⟩ := rfl
        have hB : msgSkeleton ⟨"user", .blocks bs⟩
            = ⟨"user", .blocks (bs.map blockSkeleton)⟩ := rfl
        rw [hA, hB, hb2]
      · rw [hgo, htr]
        show trOfMessages ((⟨"user", .blocks (goBlocks cutoff k bs).2⟩ : Message) ::
          (goMessages cutoff (goBlocks cutoff k bs).1 rest).2) = _
        rw [hhead, ih3, hb3, hb1, clearList_append]
    | none =>
      obtain ⟨ih1, ih2, ih3⟩ := ih k
      have hgo : goMessages cutoff k (m :: rest)
          = ((goMessages cutoff k rest).1, m :: (goMessages cutoff k rest).2) := by
        simp [goMessages, hu]
      have htr : trOfMessages (m :: rest) = trOfMessages rest := by
        simp [trOfMessages, hu]
      have htr2 : ∀ ms2 : List Message, trOfMessages (m :: ms2) = trOfMessages ms2 := by
        intro ms2
        simp [trOfMessages, hu]
      refine ⟨?_, ?_, ?_⟩
      · rw [hgo, htr]
        exact ih1
      · rw [hgo]
        show msgSkeleton m :: List.map msgSkeleton (goMessages cutoff k rest).2 = _
        rw [List.map_cons, ih2]
      · rw [hgo, htr]
        show trOfMessages (m :: (goMessages cutoff k rest).2) = _
        rw [htr2, ih3]

/-! ## Claim C7: micro-compaction clears exactly the right payloads -/

/-- C7: `microcompact` preserves the number of messages, the roles, the
content shapes and every block id (the skeleton equality); when at most
three tool results exist it changes nothing at all; and the collected
tool-result sequence is rewritten pointwise by the index rule: entry `k` is
replaced by `[cleared]` exactly when `k` is below `total - 3` and its payload
is a string longer than 100 characters, so in particular the last three
tool results are always left unchanged. -/
theorem microcompact_characterisation (messages : List Message) :
    (microcompact messages).map msgSkeleton = messages.map msgSkeleton ∧
    ((trOfMessages messages).length ≤ 3 → microcompact messages = messages) ∧
    trOfMessages (microcompact messages) =
      clearList ((trOfMessages messages).length - 3) 0 (trOfMessages messages) ∧
    (trOfMessages (microcompact messages)).drop ((trOfMessages messages).length - 3)
      = (trOfMessages messages).drop ((trOfMessages messages).length - 3) := by
  by_cases h3 : (trOfMessages messages).length ≤ 3
  · have heq : microcompact messages = messages := by
      unfold microcompact
      rw [if_pos h3]
    have hz : (trOfMessages messages).length - 3 = 0 := by omega
    refine ⟨by rw [heq], fun _ => heq, ?_, ?_⟩
    · rw [heq, hz, clearList_zero]
    · rw [heq]
  · have heq : microcompact messages =
        (goMessages ((trOfMessages messages).length - 3) 0 messages).2 := by
      unfold microcompact
      rw [if_neg h3]
    obtain ⟨-, h2, h3'⟩ :=
      goMessages_spec ((trOfMessages messages).length - 3) messages 0
    refine ⟨by rw [heq]; exact h2, fun hc => absurd hc h3, ?_, ?_⟩
    · rw [heq, h3']
    · rw [heq, h3']
      have := clearList_drop ((trOfMessages messages).length - 3)
        (trOfMessages messages) 0
      simpa using this

/-- Witness for `microcompact_characterisation`: a conversation with a
single short tool result is left unchanged. -/
theorem microcompact_characterisation_witness :
    microcompact [⟨"user", .blocks [.toolResult "a" (.str "short")]⟩]
      = [⟨"user", .blocks [.toolResult "a" (.str "short")]⟩] :=
  (microcompact_characterisation
    [⟨"user", .blocks [.toolResult "a" (.str "short")]⟩]).2.1 (by decide)

/-! ## Helper lemmas: nag counter -/

theorem runRounds_counter (rounds : List (List LeadTool)) :
    ∀ st : NagState,
      (runRounds st rounds).roundsWithoutTodo =
        rounds.foldl (fun acc r => if roundHasTodo r then 0 else acc + 1)
          st.roundsWithoutTodo := by
  induction rounds with
  | nil => intro st; rfl
  | cons r rs ih =>
    intro st
    show (runRounds (execRound st r).1 rs).roundsWithoutTodo = _
    rw [ih, List.foldl_cons]
    rfl

theorem foldl_counter_eq_takeWhile (rounds : List (List LeadTool)) :
    rounds.foldl (fun acc r => if roundHasTodo r then 0 else acc + 1) 0 =
      (rounds.reverse.takeWhile (fun r => !roundHasTodo r)).length := by
  induction rounds using List.reverseRecOn with
  | nil => rfl
  | append_singleton l a ih =>
    rw [List.foldl_append, List.reverse_append]
    by_cases ha : roundHasTodo a = true
    · simp [ha, List.takeWhile]
    · simp only [Bool.not_eq_true] at ha
      simp [ha, List.takeWhile, ih]

/-! ## Claim C8: the todo nag policy -/

/-- C8: in a tool-executing round of the lead loop, the reminder block is
prepended iff the todo tracker has open items after the round and the
`rounds_without_todo` counter is at least 3; a round executing `TodoWrite`
resets the counter to 0, any other round increments it; and starting from 0
(as `agent_loop` does) the counter always equals the number of consecutive
trailing rounds without a `TodoWrite`. -/
theorem nag_policy_characterisation :
    (∀ (st : NagState) (blocks : List LeadTool),
      (execRound st blocks).2 = true ↔
        hasOpenItems (execRound st blocks).1.todos = true ∧
          3 ≤ (execRound st blocks).1.roundsWithoutTodo) ∧
    (∀ (st : NagState) (blocks : List LeadTool),
      roundHasTodo blocks = true → (execRound st blocks).1.roundsWithoutTodo = 0) ∧
    (∀ (st : NagState) (blocks : List LeadTool),
      roundHasTodo blocks = false →
        (execRound st blocks).1.roundsWithoutTodo = st.roundsWithoutTodo + 1) ∧
    (∀ (todos : List TodoItem) (rounds : List (List LeadTool)),
      (runRounds ⟨0, todos⟩ rounds).roundsWithoutTodo =
        (rounds.reverse.takeWhile (fun r => !roundHasTodo r)).length) := by
  refine ⟨?_, ?_, ?_, ?_⟩
  · intro st blocks
    simp [execRound]
  · intro st blocks h
    simp [execRound, h]
  · intro st blocks h
    simp [execRound, h]
  · intro todos rounds
    rw [runRounds_counter rounds ⟨0, todos⟩]
    exact foldl_counter_eq_takeWhile rounds

/-- Witness for `nag_policy_characterisation`: a third round without
`TodoWrite` while a pending todo is stored fires the reminder; a `TodoWrite`
round resets the counter; two todo-less rounds from 0 count to 2. -/
theorem nag_policy_characterisation_witness :
    (execRound ⟨2, [⟨"t", "pending", "t"⟩]⟩ [.other "bash"]).2 = true ∧
    (execRound ⟨5, []⟩ [.todoWrite []]).1.roundsWithoutTodo = 0 ∧
    (runRounds ⟨0, []⟩ [[.other "a"], [.other "b"]]).roundsWithoutTodo = 2 := by
  refine ⟨(nag_policy_characterisation.1 _ _).mpr ⟨by decide, by decide⟩,
    nag_policy_characterisation.2.1 _ _ (by decide), ?_⟩
  rw [nag_policy_characterisation.2.2.2 [] [[.other "a"], [.other "b"]]]
  decide

/-! ## Helper lemmas: task board structure -/

theorem findTask_mem (board : Board) :
    ∀ (tid : Nat) (t : Task), findTask board tid = some t → t ∈ board ∧ t.id = tid := by
  induction board with
  | nil => intro tid t h; cases h
  | cons a rest ih =>
    intro tid t h
    by_cases hid : a.id = tid
    · simp only [findTask, if_pos hid] at h
      cases h
      exact ⟨List.mem_cons_self _ _, hid⟩
    · simp only [findTask, if_neg hid] at h
      obtain ⟨hm, hi⟩ := ih tid t h
      exact ⟨List.mem_cons_of_mem _ hm, hi⟩

theorem boardHas_find (board : Board) (tid : Nat) (h : boardHas board tid = true) :
    ∃ t, findTask board tid = some t := by
  induction board with
  | nil => simp [boardHas] at h
  | cons a rest ih =>
    by_cases hid : a.id = tid
    · exact ⟨a, by simp [findTask, hid]⟩
    · have hrest : boardHas rest tid = true := by
        simp only [boardHas, List.any_cons, Bool.or_eq_true, decide_eq_true_eq] at h
        rcases h with h | h
        · exact absurd h hid
        · exact h
      obtain ⟨t, ht⟩ := ih hrest
      exact ⟨t, by simp [findTask, hid, ht]⟩

theorem le_foldr_max (l : List Nat) : ∀ x ∈ l, x ≤ l.foldr max 0 := by
  induction l with
  | nil => intro x hx; cases hx
  | cons a t ih =>
    intro x hx
    rcases List.mem_cons.mp hx with rfl | hx
    · exact Nat.le_max_left _ _
    · exact Nat.le_trans (ih x hx) (Nat.le_max_right _ _)

theorem nextId_fresh (board : Board) : ∀ t ∈ board, t.id < nextId board := by
  intro t ht
  have hm : t.id ∈ board.map Task.id := List.mem_map_of_mem _ ht
  have := le_foldr_max (board.map Task.id) _ hm
  unfold nextId
  omega

theorem id_unique (board : Board) (h : (board.map Task.id).Nodup) :
    ∀ u ∈ board, ∀ v ∈ board, u.id = v.id → u = v := by
  induction board with
  | nil => intro u hu; cases hu
  | cons a t ih =>
    intro u hu v hv huv
    rw [List.map_cons, List.nodup_cons] at h
    rcases List.mem_cons.mp hu with hua | hu2 <;> rcases List.mem_cons.mp hv with hva | hv2
    · rw [hua, hva]
    · rw [hua] at huv
      have hm : v.id ∈ t.map Task.id := List.mem_map_of_mem _ hv2
      rw [← huv] at hm
      exact absurd hm h.1
    · rw [hva] at huv
      have hm : u.id ∈ t.map Task.id := List.mem_map_of_mem _ hu2
      rw [huv] at hm
      exact absurd hm h.1
    · exact ih h.2 u hu2 v hv2 huv

theorem mem_saveTask {board : Board} {t v : Task} (h : v ∈ saveTask board t) :
    v = t ∨ (v ∈ board ∧ v.id ≠ t.id) := by
  unfold saveTask at h
  by_cases hany : board.any (fun u => u.id = t.id) = true
  · rw [if_pos hany] at h
    obtain ⟨u, hu, hfu⟩ := List.mem_map.mp h
    by_cases hid : u.id = t.id
    · left
      rw [← hfu, if_pos hid]
    · right
      rw [← hfu, if_neg hid]
      exact ⟨hu, hid⟩
  · rw [if_neg hany] at h
    rcases List.mem_append.mp h with hv | hv
    · right
      refine ⟨hv, fun he => ?_⟩
      simp only [List.any_eq_true, decide_eq_true_eq, not_exists, not_and] at hany
      exact hany v hv he
    · left
      exact List.mem_singleton.mp hv

theorem saveTask_map_id {board : Board} {t : Task}
    (hany : board.any (fun u => u.id = t.id) = true) :
    (saveTask board t).map Task.id = board.map Task.id := by
  unfold saveTask
  rw [if_pos hany, List.map_map]
  refine List.map_congr_left ?_
  intro u _
  by_cases hid : u.id = t.id
  · simp [Function.comp, if_pos hid, hid]
  · simp [Function.comp, if_neg hid]

theorem saveTask_nodup {board : Board} {t : Task}
    (h : (board.map Task.id).Nodup) : ((saveTask board t).map Task.id).Nodup := by
  by_cases hany : board.any (fun u => u.id = t.id) = true
  · rw [saveTask_map_id hany]
    exact h
  · unfold saveTask
    rw [if_neg hany, List.map_append, List.nodup_append]
    refine ⟨h, List.nodup_singleton _, ?_⟩
    intro x hx hx2
    rw [List.map_singleton, List.mem_singleton] at hx2
    subst hx2
    obtain ⟨u, hu, hui⟩ := List.mem_map.mp hx
    simp only [List.any_eq_true, decide_eq_true_eq, not_exists, not_and] at hany
    exact hany u hu hui

theorem boardWF_saveTask {board : Board} {t : Task} (h : boardWF board)
    (h1 : t.blockedBy.Nodup) (h2 : t.id ∉ t.blockedBy) :
    boardWF (saveTask board t) := by
  refine ⟨saveTask_nodup h.1, ?_⟩
  intro v hv
  rcases mem_saveTask hv with rfl | ⟨hvb, -⟩
  · exact ⟨h1, h2⟩
  · exact h.2 v hvb

/-! ## Helper lemmas: sweep and field merges -/

theorem sweepTask_id (tid : Nat) (u : Task) : (sweepTask tid u).id = u.id := by
  unfold sweepTask
  by_cases h : tid ∈ u.blockedBy <;> simp [h]

theorem sweepTask_status (tid : Nat) (u : Task) :
    (sweepTask tid u).status = u.status := by
  unfold sweepTask
  by_cases h : tid ∈ u.blockedBy <;> simp [h]

theorem sweepTask_subset {tid b : Nat} {u : Task}
    (h : b ∈ (sweepTask tid u).blockedBy) : b ∈ u.blockedBy := by
  unfold sweepTask at h
  by_cases hm : tid ∈ u.blockedBy
  · rw [if_pos hm] at h
    exact List.mem_of_mem_erase h
  · rw [if_neg hm] at h
    exact h

theorem sweepTask_nodup {tid : Nat} {u : Task} (h : u.blockedBy.Nodup) :
    (sweepTask tid u).blockedBy.Nodup := by
  unfold sweepTask
  by_cases hm : tid ∈ u.blockedBy
  · rw [if_pos hm]
    exact h.erase tid
  · rw [if_neg hm]
    exact h

theorem sweepTask_not_mem {tid : Nat} {u : Task} (h : u.blockedBy.Nodup) :
    tid ∉ (sweepTask tid u).blockedBy := by
  unfold sweepTask
  by_cases hm : tid ∈ u.blockedBy
  · rw [if_pos hm]
    intro hc
    exact absurd ((h.mem_erase_iff.mp hc).1 rfl) not_false
  · rw [if_neg hm]
    exact hm

theorem sweep_map_id (board : Board) (tid : Nat) :
    (sweepCompleted board tid).map Task.id = board.map Task.id := by
  unfold sweepCompleted
  rw [List.map_map]
  exact List.map_congr_left (fun u _ => sweepTask_id tid u)

theorem boardWF_sweep {board : Board} (tid : Nat) (h : boardWF board) :
    boardWF (sweepCompleted board tid) := by
  refine ⟨by rw [sweep_map_id]; exact h.1, ?_⟩
  intro v hv
  obtain ⟨u, hu, rfl⟩ := List.mem_map.mp hv
  obtain ⟨hn, hs⟩ := h.2 u hu
  refine ⟨sweepTask_nodup hn, ?_⟩
  rw [sweepTask_id]
  intro hc
  exact hs (sweepTask_subset hc)

theorem listArg_of_ne_nil {l : List Nat} (hl : l ≠ []) :
    listArg (some l) = some l := by
  show (if l = [] then none else some l) = some l
  rw [if_neg hl]

theorem mem_of_mem_mergeIds {old : List Nat} {arg : Option (List Nat)} {b : Nat}
    (h : b ∈ mergeIds old arg) : b ∈ old ∨ ∃ l, arg = some l ∧ b ∈ l := by
  cases arg with
  | none => exact Or.inl h
  | some l =>
    by_cases hl : l = []
    · subst hl
      exact Or.inl h
    · unfold mergeIds at h
      rw [listArg_of_ne_nil hl] at h
      have hd : b ∈ (old ++ l).dedup := h
      rcases List.mem_append.mp (List.mem_dedup.mp hd) with hb | hb
      · exact Or.inl hb
      · exact Or.inr ⟨l, rfl, hb⟩

theorem mergeIds_nodup (old : List Nat) (arg : Option (List Nat))
    (h : old.Nodup) : (mergeIds old arg).Nodup := by
  cases arg with
  | none => exact h
  | some l =>
    by_cases hl : l = []
    · subst hl
      exact h
    · show (mergeIds old (some l)).Nodup
      unfold mergeIds
      rw [listArg_of_ne_nil hl]
      exact List.nodup_dedup _

theorem mergeStatus_none (old : String) : mergeStatus old none = old := rfl

theorem mergeStatus_cases (old : String) (arg : Option String) :
    mergeStatus old arg = old ∨ statusArg arg = some (mergeStatus old arg) := by
  unfold mergeStatus
  cases hs : statusArg arg with
  | none => exact Or.inl rfl
  | some s => exact Or.inr rfl

theorem mergedTask_id (t0 : Task) (st : Option String)
    (bb bl : Option (List Nat)) : (mergedTask t0 st bb bl).id = t0.id := rfl

theorem mergedTask_status (t0 : Task) (st : Option String)
    (bb bl : Option (List Nat)) :
    (mergedTask t0 st bb bl).status = mergeStatus t0.status st := rfl

theorem mergedTask_blockedBy (t0 : Task) (st : Option String)
    (bb bl : Option (List Nat)) :
    (mergedTask t0 st bb bl).blockedBy = mergeIds t0.blockedBy bb := rfl

theorem applyOp_update_eq (board : Board) (tid : Nat) (st : Option String)
    (bb bl : Option (List Nat)) :
    applyOp board (.update tid st bb bl) =
      (match TaskManager.update board tid st bb bl with
        | .ok b => b
        | .error _ => board) := rfl

theorem applyOp_claim_eq (board : Board) (tid : Nat) (o : String) :
    applyOp board (.claim tid o) =
      (match TaskManager.claim board tid o with
        | .ok b => b
        | .error _ => board) := rfl

theorem update_eq_of_found {board : Board} {tid : Nat} {t0 : Task}
    (hf : findTask board tid = some t0) (st : Option String)
    (bb bl : Option (List Nat)) :
    TaskManager.update board tid st bb bl =
      if statusArg st = some "deleted" then
        .ok (board.filter (fun u => u.id ≠ tid))
      else
        .ok (saveTask
          (if statusArg st = some "completed"
            then sweepCompleted board tid else board)
          (mergedTask t0 st bb bl)) := by
  unfold TaskManager.update
  rw [hf]

theorem update_eq_not_found {board : Board} {tid : Nat}
    (hf : findTask board tid = none) (st : Option String)
    (bb bl : Option (List Nat)) :
    TaskManager.update board tid st bb bl =
      .error ("Task " ++ toString tid ++ " not found") := by
  unfold TaskManager.update
  rw [hf]

theorem claim_eq_of_found {board : Board} {tid : Nat} {t0 : Task}
    (hf : findTask board tid = some t0) (o : String) :
    TaskManager.claim board tid o =
      .ok (saveTask board { t0 with owner := some o, status := "in_progress" }) := by
  unfold TaskManager.claim
  rw [hf]

theorem claim_eq_not_found {board : Board} {tid : Nat}
    (hf : findTask board tid = none) (o : String) :
    TaskManager.claim board tid o =
      .error ("Task " ++ toString tid ++ " not found") := by
  unfold TaskManager.claim
  rw [hf]

/-! ## Helper lemmas: the task invariant is preserved -/

theorem inv_empty : TaskInv [] :=
  ⟨⟨List.nodup_nil, fun t ht => absurd ht (List.not_mem_nil t)⟩,
    fun t ht => absurd ht (List.not_mem_nil t)⟩

theorem inv_create (board : Board) (s d : String) (h : TaskInv board) :
    TaskInv (TaskManager.create board s d) := by
  obtain ⟨hwf, hdep⟩ := h
  unfold TaskManager.create
  refine ⟨boardWF_saveTask hwf List.nodup_nil (List.not_mem_nil _), ?_⟩
  intro v hv b hb hc
  obtain ⟨w, hw, hwid, hwst⟩ := hc
  rcases mem_saveTask hv with rfl | ⟨hvB, -⟩
  · exact absurd hb (List.not_mem_nil b)
  · rcases mem_saveTask hw with rfl | ⟨hwB, -⟩
    · exact (show ("pending" : String) ≠ "completed" by decide) hwst
    · exact hdep v hvB b hb ⟨w, hwB, hwid, hwst⟩

theorem inv_claim (board : Board) (tid : Nat) (o : String) (h : TaskInv board) :
    TaskInv (applyOp board (.claim tid o)) := by
  obtain ⟨hwf, hdep⟩ := h
  cases hf : findTask board tid with
  | none =>
    have happ : applyOp board (.claim tid o) = board := by
      rw [applyOp_claim_eq, claim_eq_not_found hf o]
    rw [happ]
    exact ⟨hwf, hdep⟩
  | some t0 =>
    obtain ⟨h0mem, h0id⟩ := findTask_mem board tid t0 hf
    obtain ⟨h0nodup, h0self⟩ := hwf.2 t0 h0mem
    have happ : applyOp board (.claim tid o)
        = saveTask board { t0 with owner := some o, status := "in_progress" } := by
      rw [applyOp_claim_eq, claim_eq_of_found hf o]
    rw [happ]
    refine ⟨boardWF_saveTask hwf h0nodup h0self, ?_⟩
    intro v hv b hb hc
    obtain ⟨w, hw, hwid, hwst⟩ := hc
    rcases mem_saveTask hw with rfl | ⟨hwB, -⟩
    · exact (show ("in_progress" : String) ≠ "completed" by decide) hwst
    · have hcb : completedOn board b := ⟨w, hwB, hwid, hwst⟩
      rcases mem_saveTask hv with rfl | ⟨hvB, -⟩
      · exact hdep t0 h0mem b hb hcb
      · exact hdep v hvB b hb hcb

theorem inv_update (board : Board) (tid : Nat) (status : Option String)
    (bb bl : Option (List Nat)) (hInv : TaskInv board)
    (hok : opOkB board (.update tid status bb bl) = true) :
    TaskInv (applyOp board (.update tid status bb bl)) := by
  obtain ⟨hwf, hdep⟩ := hInv
  have hguard : ∀ b2, (∃ l, bb = some l ∧ b2 ∈ l) →
      b2 ≠ tid ∧ ∀ w ∈ board, w.id = b2 → w.status ≠ "completed" := by
    rintro b2 ⟨l, rfl, hb2⟩
    have hok2 : addOkB board tid l = true := hok
    simp only [addOkB, List.all_eq_true, Bool.and_eq_true, Bool.or_eq_true,
      decide_eq_true_eq] at hok2
    obtain ⟨hne, hall⟩ := hok2 b2 hb2
    refine ⟨hne, ?_⟩
    intro w hw hwid
    rcases hall w hw with hid | hst
    · exact absurd hwid hid
    · exact hst
  cases hf : findTask board tid with
  | none =>
    have happ : applyOp board (.update tid status bb bl) = board := by
      rw [applyOp_update_eq, update_eq_not_found hf status bb bl]
    rw [happ]
    exact ⟨hwf, hdep⟩
  | some t0 =>
    obtain ⟨h0mem, h0id⟩ := findTask_mem board tid t0 hf
    obtain ⟨h0nodup, h0self⟩ := hwf.2 t0 h0mem
    have ht3nodup : (mergeIds t0.blockedBy bb).Nodup := mergeIds_nodup _ _ h0nodup
    have ht3self : tid ∉ mergeIds t0.blockedBy bb := by
      intro hc
      rcases mem_of_mem_mergeIds hc with hc0 | hcl
      · rw [h0id] at h0self
        exact h0self hc0
      · exact (hguard tid hcl).1 rfl
    by_cases hdel : statusArg status = some "deleted"
    · have happ : applyOp board (.update tid status bb bl)
          = board.filter (fun u => u.id ≠ tid) := by
        rw [applyOp_update_eq, update_eq_of_found hf status bb bl, if_pos hdel]
      rw [happ]
      refine ⟨⟨?_, ?_⟩, ?_⟩
      · exact List.Nodup.sublist (List.Sublist.map Task.id (List.filter_sublist board))
          hwf.1
      · intro v hv
        exact hwf.2 v (List.mem_of_mem_filter hv)
      · intro v hv b hb hc
        obtain ⟨w, hw, hwid, hwst⟩ := hc
        exact hdep v (List.mem_of_mem_filter hv) b hb
          ⟨w, List.mem_of_mem_filter hw, hwid, hwst⟩
    · by_cases hcomp : statusArg status = some "completed"
      · have happ : applyOp board (.update tid status bb bl)
            = saveTask (sweepCompleted board tid) (mergedTask t0 status bb bl) := by
          rw [applyOp_update_eq, update_eq_of_found hf status bb bl,
            if_neg hdel, if_pos hcomp]
        rw [happ]
        refine ⟨boardWF_saveTask (boardWF_sweep tid hwf) ht3nodup
          (by rw [mergedTask_id, h0id]; exact ht3self), ?_⟩
        intro v hv b hb hc
        obtain ⟨w, hw, hwid, hwst⟩ := hc
        have hnotid : ∀ v2 ∈ saveTask (sweepCompleted board tid)
            (mergedTask t0 status bb bl), tid ∉ v2.blockedBy := by
          intro v2 hv2
          rcases mem_saveTask hv2 with rfl | ⟨hv2S, -⟩
          · exact ht3self
          · obtain ⟨u, hu, rfl⟩ := List.mem_map.mp hv2S
            exact sweepTask_not_mem (hwf.2 u hu).1
        rcases mem_saveTask hw with rfl | ⟨hwS, hwne⟩
        · rw [mergedTask_id, h0id] at hwid
          rw [← hwid] at hb
          exact hnotid v hv hb
        · obtain ⟨w0, hw0, rfl⟩ := List.mem_map.mp hwS
          rw [sweepTask_id] at hwid
          rw [sweepTask_status] at hwst
          have hcb : completedOn board b := ⟨w0, hw0, hwid, hwst⟩
          rcases mem_saveTask hv with rfl | ⟨hvS, -⟩
          · have hb2 : b ∈ mergeIds t0.blockedBy bb := hb
            rcases mem_of_mem_mergeIds hb2 with hbO | hbL
            · exact hdep t0 h0mem b hbO hcb
            · exact (hguard b hbL).2 w0 hw0 hwid hwst
          · obtain ⟨u, hu, rfl⟩ := List.mem_map.mp hvS
            exact hdep u hu b (sweepTask_subset hb) hcb
      · have happ : applyOp board (.update tid status bb bl)
            = saveTask board (mergedTask t0 status bb bl) := by
          rw [applyOp_update_eq, update_eq_of_found hf status bb bl,
            if_neg hdel, if_neg hcomp]
        rw [happ]
        refine ⟨boardWF_saveTask hwf ht3nodup
          (by rw [mergedTask_id, h0id]; exact ht3self), ?_⟩
        intro v hv b hb hc
        obtain ⟨w, hw, hwid, hwst⟩ := hc
        rcases mem_saveTask hw with rfl | ⟨hwB, hwne⟩
        · rw [mergedTask_status] at hwst
          rcases mergeStatus_cases t0.status status with hms | hms
          · rw [hwst] at hms
            have h0st : t0.status = "completed" := hms.symm
            rw [mergedTask_id, h0id] at hwid
            rw [← hwid] at hb
            have hcb : completedOn board tid := ⟨t0, h0mem, h0id, h0st⟩
            rcases mem_saveTask hv with rfl | ⟨hvB, -⟩
            · exact ht3self hb
            · exact hdep v hvB tid hb hcb
          · rw [hwst] at hms
            exact absurd hms hcomp
        · have hcb : completedOn board b := ⟨w, hwB, hwid, hwst⟩
          rcases mem_saveTask hv with rfl | ⟨hvB, -⟩
          · have hb2 : b ∈ mergeIds t0.blockedBy bb := hb
            rcases mem_of_mem_mergeIds hb2 with hbO | hbL
            · exact hdep t0 h0mem b hbO hcb
            · exact (hguard b hbL).2 w hwB hwid hwst
          · exact hdep v hvB b hb hcb

theorem inv_applyOp (board : Board) (op : TaskOp) (h : TaskInv board)
    (hok : opOkB board op = true) : TaskInv (applyOp board op) := by
  cases op with
  | create s d => exact inv_create board s d h
  | update tid st bb bl => exact inv_update board tid st bb bl h hok
  | claim tid o => exact inv_claim board tid o h

theorem inv_runOps :
    ∀ (ops : List TaskOp) (board : Board), TaskInv board →
      goodOps board ops = true → TaskInv (runOps board ops) := by
  intro ops
  induction ops with
  | nil => intro board h _; exact h
  | cons op rest ih =>
    intro board h hg
    simp only [goodOps, Bool.and_eq_true] at hg
    exact ih _ (inv_applyOp board op h hg.1) hg.2

/-! ## Claim C3: task dependency consistency -/

/-- C3 (counterexample): the stated claim says no reachable board state has
a `blockedBy` entry naming a completed or deleted task.  But `add_blocked_by`
is never validated: after completing task 1 and then adding it to task 2 as
a blocker, task 2 blocks on the completed task 1.  (The deletion path
violates the claim too: deletion removes the file without any sweep.) -/
theorem task_dep_claim_counterexample :
    ∃ t ∈ runOps [] c3Ops, ∃ b ∈ t.blockedBy,
      ∃ w ∈ runOps [] c3Ops, w.id = b ∧ w.status = "completed" := by
  decide

/-- C3 (amended): for every operation sequence in which each
`add_blocked_by` argument adds only ids different from the target task and
not naming a currently-completed task on the board, every reachable state
satisfies dependency consistency for tasks on the board: no `blockedBy`
entry names a completed task.  Ids of deleted tasks may remain dangling. -/
theorem task_dep_consistency_guarded (ops : List TaskOp)
    (h : goodOps [] ops = true) : depConsistent (runOps [] ops) :=
  (inv_runOps ops [] inv_empty h).2

/-- Witness for `task_dep_consistency_guarded`: blocker added while still
pending, then completed — the sweep cleans it up. -/
theorem task_dep_consistency_guarded_witness :
    depConsistent (runOps [] c3GoodOps) :=
  task_dep_consistency_guarded c3GoodOps (by decide)

/-! ## Claim C4: claimability -/

/-- C4 (counterexample): the stated claim says every claim — including the
`claim_task` tool — happens only while the task is pending, unowned and
unblocked.  But `TaskManager.claim` is unconditional: after `c4Ops` task 1
is completed, and the tool claim still succeeds and flips it to
`in_progress` owned by the lead. -/
theorem claim_tool_counterexample :
    (∃ t ∈ runOps [] c4Ops, t.id = 1 ∧ t.status = "completed") ∧
    TaskManager.claim (runOps [] c4Ops) 1 "lead"
      = Except.ok [⟨1, "a", "", "in_progress", some "lead", [], []⟩] := by
  exact ⟨by decide, by rfl⟩

/-- C4 (amended): only the teammate idle-phase auto-claim restricts claiming
to claimable tasks — any task it selects is pending, unowned (Python falsy)
and unblocked; the `claim_task` tool path (`TaskManager.claim`) succeeds on
every existing task unconditionally. -/
theorem claimability_characterisation :
    (∀ (board : Board) (t : Task), idleScan board = some t →
      t.status = "pending" ∧ ownerFalsy t.owner = true ∧ t.blockedBy = []) ∧
    (∀ (board : Board) (tid : Nat) (o : String), boardHas board tid = true →
      boardOpOk (TaskManager.claim board tid o) = true) := by
  constructor
  · intro board t h
    have hmem : t ∈ board.filter claimableB := by
      unfold idleScan at h
      cases hf : board.filter claimableB with
      | nil => rw [hf] at h; cases h
      | cons x xs =>
        rw [hf, List.head?_cons] at h
        cases h
        exact List.mem_cons_self _ _
    have hc := (List.mem_filter.mp hmem).2
    simp only [claimableB, Bool.and_eq_true, decide_eq_true_eq] at hc
    obtain ⟨⟨h1, h2⟩, h3⟩ := hc
    exact ⟨h1, h2, List.isEmpty_iff.mp h3⟩
  · intro board tid o h
    obtain ⟨t, ht⟩ := boardHas_find board tid h
    rw [claim_eq_of_found ht o]
    rfl

/-- Witness for `claimability_characterisation`: a one-task board. -/
theorem claimability_characterisation_witness :
    ((⟨7, "scan", "", "pending", none, [], []⟩ : Task).status = "pending" ∧
      ownerFalsy (Task.owner ⟨7, "scan", "", "pending", none, [], []⟩) = true ∧
      (⟨7, "scan", "", "pending", none, [], []⟩ : Task).blockedBy = []) ∧
    boardOpOk
      (TaskManager.claim [⟨7, "scan", "", "pending", none, [], []⟩] 7 "w")
      = true := by
  refine ⟨claimability_characterisation.1
      [⟨7, "scan", "", "pending", none, [], []⟩] _ (by rfl),
    claimability_characterisation.2
      [⟨7, "scan", "", "pending", none, [], []⟩] 7 "w" (by decide)⟩

end SFull
